import Mathlib

/-!
# Verification of the Boggle solver (src/main.rs)

Shallow embedding of the Rust program in `src/main.rs`:

* `TrieNode` with `insert` embeds the trie (lines 6-20); the `HashMap<char, TrieNode>`
  is embedded as an association list whose lookup returns the first matching key.
* `BoggleSolver` with `new`, `solve` and `dfs` embeds the solver (lines 22-99).
  `Vec<Vec<_>>` becomes `List (List _)`, `i32` coordinates become `Int`
  (boards are far below the `i32` range, so wrap-around is not modelled),
  the mutable `visited` / `found` state is threaded explicitly, and the
  `HashSet<String>` of found words becomes a duplicate-free `List (List Char)`.
* `runMain` embeds the argument handling of `main` (lines 101-131); file input is
  embedded as the list of lines read (`Option` = load success/failure), and
  `board[0]` on an empty board (a Rust index panic in `new`, line 44) is `none`.
* Rust `str::trim` / `to_uppercase` are embedded per `Char` via
  `Char.isWhitespace` / `Char.toUpper`; the multi-character expansions that
  Unicode uppercasing can produce in Rust are not modelled (the program's
  inputs are ASCII rows and dictionary words).

Specification-side definitions (`adj`, `SpellsPath`, `Spellable`, `loadWords`)
state what a word findable on the board is; the main theorems relate them to
the embedded search.
-/

/-- Trie node (src/main.rs lines 6-10): children map plus terminal flag.
The `HashMap` is embedded as an association list; lookup takes the first
entry with the queried key. -/
inductive TrieNode where
  | mk (children : List (Char × TrieNode)) (is_word : Bool)

/-- The children association list of a trie node. -/
def TrieNode.children : TrieNode → List (Char × TrieNode)
  | .mk cs _ => cs

/-- The terminal flag of a trie node. -/
def TrieNode.is_word : TrieNode → Bool
  | .mk _ w => w

/-- `TrieNode::default()`: empty children, not a word. -/
def TrieNode.empty : TrieNode := .mk [] false

/-- Association-list lookup, embedding `HashMap::get`. -/
def findChild : List (Char × TrieNode) → Char → Option TrieNode
  | [], _ => none
  | (c, t) :: rest, ch => if c = ch then some t else findChild rest ch

/-- `node.children.get(&ch)` (src/main.rs line 80). -/
def TrieNode.find (t : TrieNode) (c : Char) : Option TrieNode :=
  findChild t.children c

/-- Replace the child for key `ch` (first occurrence) by `u`, appending a new
entry when the key is absent: the effect of `children.entry(c).or_default()`
followed by mutation of the obtained node. -/
def updateChild : List (Char × TrieNode) → Char → TrieNode → List (Char × TrieNode)
  | [], ch, u => [(ch, u)]
  | (c, t) :: rest, ch, u =>
    if c = ch then (c, u) :: rest else (c, t) :: updateChild rest ch u

/-- `TrieNode::insert` (src/main.rs lines 13-19): walk the word, creating missing
children via `entry(c).or_default()`, and mark the final node terminal. -/
def TrieNode.insert : TrieNode → List Char → TrieNode
  | t, [] => .mk t.children true
  | t, c :: cs =>
    let child := (t.find c).getD TrieNode.empty
    .mk (updateChild t.children c (child.insert cs)) t.is_word

/-- Specification-side trie membership: `t.accepts w` holds when descending
from `t` along the characters of `w` reaches a node whose `is_word` flag is set. -/
def TrieNode.accepts : TrieNode → List Char → Bool
  | t, [] => t.is_word
  | t, c :: cs =>
    match t.find c with
    | none => false
    | some u => u.accepts cs

/-- The solver state (src/main.rs lines 22-27). -/
structure BoggleSolver where
  trie : TrieNode
  board : List (List Char)
  rows : Int
  cols : Int

/-- `self.board[r as usize][c as usize]` — total embedding of grid indexing;
callers guard the indices, so the default is never reached on guarded paths. -/
def getCell (board : List (List Char)) (r c : Int) : Char :=
  (board.getD r.toNat []).getD c.toNat 'A'

/-- `visited[r as usize][c as usize]` — total embedding of mask indexing. -/
def getV (v : List (List Bool)) (r c : Int) : Bool :=
  (v.getD r.toNat []).getD c.toNat false

/-- `visited[r as usize][c as usize] = b` — functional update of the mask. -/
def setV (v : List (List Bool)) (r c : Int) (b : Bool) : List (List Bool) :=
  v.set r.toNat ((v.getD r.toNat []).set c.toNat b)

/-- `found.insert(path)` on the `HashSet`: add the word unless present. -/
def insertWord (f : List (List Char)) (w : List Char) : List (List Char) :=
  if w ∈ f then f else f ++ [w]

/-- Auxiliary: a successful child lookup in an association list returns a
structurally smaller trie. -/
theorem sizeOf_findChild {l : List (Char × TrieNode)} {ch : Char} {t : TrieNode}
    (h : findChild l ch = some t) : sizeOf t < sizeOf l := by
  induction l with
  | nil => simp [findChild] at h
  | cons p rest ih =>
    obtain ⟨c, u⟩ := p
    by_cases hc : c = ch
    · simp [findChild, hc] at h
      subst h
      simp
      omega
    · simp [findChild, hc] at h
      have := ih h
      simp
      omega

/-- A successful `find` returns a structurally smaller trie node. -/
theorem sizeOf_find {t : TrieNode} {ch : Char} {u : TrieNode}
    (h : t.find ch = some u) : sizeOf u < sizeOf t := by
  cases t with
  | mk cs w =>
    have h2 : findChild cs ch = some u := h
    have := sizeOf_findChild h2
    simp
    omega

/-- `BoggleSolver::dfs` (src/main.rs lines 66-98).  The guard returns the state
unchanged; otherwise the cell's letter is looked up in the trie, the cell is
marked visited, the extended path is recorded when the child is terminal, the
eight neighbour offsets are recursed in the Rust iteration order
(`dr` = -1,0,1 outer, `dc` = -1,0,1 inner, skipping `(0,0)`), and the cell is
unmarked.  The mutable `(visited, found)` pair is threaded through the calls. -/
def BoggleSolver.dfs (s : BoggleSolver) (r c : Int) (node : TrieNode)
    (path : List Char) (visited : List (List Bool)) (found : List (List Char)) :
    List (List Bool) × List (List Char) :=
  if r < 0 ∨ r ≥ s.rows ∨ c < 0 ∨ c ≥ s.cols ∨ getV visited r c then
    (visited, found)
  else
    let ch := getCell s.board r c
    match h : node.find ch with
    | none => (visited, found)
    | some next =>
      let v1 := setV visited r c true
      let p1 := path ++ [ch]
      let f0 := if next.is_word then insertWord found p1 else found
      let t1 := s.dfs (r - 1) (c - 1) next p1 v1 f0
      let t2 := s.dfs (r - 1) c next p1 t1.1 t1.2
      let t3 := s.dfs (r - 1) (c + 1) next p1 t2.1 t2.2
      let t4 := s.dfs r (c - 1) next p1 t3.1 t3.2
      let t5 := s.dfs r (c + 1) next p1 t4.1 t4.2
      let t6 := s.dfs (r + 1) (c - 1) next p1 t5.1 t5.2
      let t7 := s.dfs (r + 1) c next p1 t6.1 t6.2
      let t8 := s.dfs (r + 1) (c + 1) next p1 t7.1 t7.2
      (setV t8.1 r c false, t8.2)
termination_by sizeOf node
decreasing_by all_goals exact sizeOf_find h

/-- The freshly allocated all-false visited mask
(`vec![vec![false; cols]; rows]`, src/main.rs line 50). -/
def BoggleSolver.initVisited (s : BoggleSolver) : List (List Bool) :=
  List.replicate s.rows.toNat (List.replicate s.cols.toNat false)

/-- The double starting-cell loop of `solve` (src/main.rs lines 52-56):
fold `dfs` over all `(r, c)` with `0 ≤ r < rows`, `0 ≤ c < cols` in row-major
order, starting from the all-false mask and the empty found set. -/
def BoggleSolver.runSearch (s : BoggleSolver) : List (List Bool) × List (List Char) :=
  (List.range s.rows.toNat).foldl
    (fun st (r : Nat) =>
      (List.range s.cols.toNat).foldl
        (fun st2 (c : Nat) => s.dfs (r : Int) (c : Int) s.trie [] st2.1 st2.2) st)
    (s.initVisited, [])

/-- Strict lexicographic order on character lists: the order underlying Rust's
`a.cmp(b)` on the found words (all ASCII uppercase, so byte order and
character order agree). -/
def lexLt : List Char → List Char → Bool
  | [], [] => false
  | [], _ :: _ => true
  | _ :: _, [] => false
  | a :: as, b :: bs => if a < b then true else if b < a then false else lexLt as bs

/-- The sort comparator of `solve` (src/main.rs line 60),
`b.len().cmp(&a.len()).then(a.cmp(b))`, read as a `≤` test:
longer words come first, ties are broken by ascending lexicographic order. -/
def rankLE (a b : List Char) : Bool :=
  if a.length = b.length then !(lexLt b a) else decide (b.length < a.length)

/-- `BoggleSolver::solve` (src/main.rs lines 48-64): run the search, count the
found set, sort it with `rankLE` and keep the first six entries. -/
def BoggleSolver.solve (s : BoggleSolver) : Nat × List (List Char) :=
  let found := s.runSearch.2
  (found.length, (found.mergeSort rankLE).take 6)

/-- `str::trim` on a line, embedded per character. -/
def trimWord (w : List Char) : List Char :=
  ((w.dropWhile Char.isWhitespace).reverse.dropWhile Char.isWhitespace).reverse

/-- Dictionary-line processing of `BoggleSolver::new` (src/main.rs lines 35-41):
trim the line; when the trimmed length is between 3 and 16, insert its
uppercased form. -/
def insertLine (t : TrieNode) (line : List Char) : TrieNode :=
  if 3 ≤ (trimWord line).length ∧ (trimWord line).length ≤ 16 then
    t.insert ((trimWord line).map Char.toUpper)
  else t

/-- The trie built from the dictionary lines, in file order. -/
def buildTrie (dict : List (List Char)) : TrieNode :=
  dict.foldl insertLine TrieNode.empty

/-- `BoggleSolver::new` (src/main.rs lines 30-46), with the dictionary file
embedded as its list of lines.  `board[0]` on a zero-row board is a Rust
index panic, embedded as `none`. -/
def BoggleSolver.new (board : List (List Char)) (dict : List (List Char)) :
    Option BoggleSolver :=
  match board with
  | [] => none
  | row0 :: _ =>
    some ⟨buildTrie dict, board, (board.length : Int), (row0.length : Int)⟩

/-- Specification side: the normalized dictionary — every line trimmed,
filtered to trimmed length 3..16, then uppercased.  These are exactly the
words inserted into the trie. -/
def loadWords (dict : List (List Char)) : List (List Char) :=
  ((dict.map trimWord).filter
    (fun w => decide (3 ≤ w.length ∧ w.length ≤ 16))).map (List.map Char.toUpper)

/-- The eight neighbour offsets, in the Rust iteration order. -/
def neighborOffsets : List (Int × Int) :=
  [(-1, -1), (-1, 0), (-1, 1), (0, -1), (0, 1), (1, -1), (1, 0), (1, 1)]

/-- 8-directional adjacency: `q` is one of the eight neighbours of `p`. -/
def adj (p q : Int × Int) : Prop :=
  q ∈ neighborOffsets.map (fun d => (p.1 + d.1, p.2 + d.2))

/-- `p` is a legal cell of the board. -/
def inBounds (s : BoggleSolver) (p : Int × Int) : Prop :=
  0 ≤ p.1 ∧ p.1 < s.rows ∧ 0 ≤ p.2 ∧ p.2 < s.cols

/-- Specification side: `cells` is a path of pairwise-distinct, in-bounds,
consecutively 8-adjacent cells whose letters spell `w`. -/
def SpellsPath (s : BoggleSolver) (cells : List (Int × Int)) (w : List Char) : Prop :=
  w = cells.map (fun p => getCell s.board p.1 p.2) ∧ cells.Nodup ∧
    cells.Chain' adj ∧ ∀ p ∈ cells, inBounds s p

/-- Specification side: some non-empty path on the board spells `w`. -/
def Spellable (s : BoggleSolver) (w : List Char) : Prop :=
  ∃ cells, cells ≠ [] ∧ SpellsPath s cells w

/-- Generalized path predicate used in the `dfs` invariant: like `SpellsPath`,
but every cell must additionally be unvisited in the mask `v`. -/
def GoodPath (s : BoggleSolver) (v : List (List Bool)) (cells : List (Int × Int))
    (w : List Char) : Prop :=
  w = cells.map (fun p => getCell s.board p.1 p.2) ∧ cells.Nodup ∧
    cells.Chain' adj ∧ ∀ p ∈ cells, inBounds s p ∧ getV v p.1 p.2 = false

/-- Outcome of the program-level argument and dictionary handling
(src/main.rs lines 101-131). -/
inductive MainResult where
  | usageError
  | rowLenError
  | dictError
  | success (total : Nat) (words : List (List Char))
deriving DecidableEq

/-- `main` (src/main.rs lines 101-131): argument-count check against 5
(`args[0]` is the executable path), per-row length-4 check, uppercasing, then
construction and solve; the dictionary argument is `none` when loading
`words.txt` fails, in which case an error naming the resource is printed and
no result is produced. -/
def runMain (args : List (List Char)) (dict : Option (List (List Char))) :
    MainResult :=
  if args.length ≠ 5 then .usageError
  else
    let rows := args.drop 1
    if rows.any (fun row => decide (row.length ≠ 4)) then .rowLenError
    else
      let board := rows.map (fun row => row.map Char.toUpper)
      match dict with
      | none => .dictError
      | some d =>
        match BoggleSolver.new board d with
        | none => .dictError
        | some solver => .success solver.solve.1 solver.solve.2

/-! ## Basic list lemmas for the nested-list grid embedding -/

/-- `getD` after `set` at the same (in-range) index returns the new value. -/
theorem list_getD_set_self {α : Type} (l : List α) (n : Nat) (x d : α)
    (h : n < l.length) : (l.set n x).getD n d = x := by
  induction l generalizing n with
  | nil => simp at h
  | cons a t ih =>
    cases n with
    | zero => rfl
    | succ m =>
      simp only [List.set_cons_succ, List.getD_cons_succ]
      exact ih m (by simpa using h)

/-- `getD` after `set` at a different index is unchanged. -/
theorem list_getD_set_ne {α : Type} (l : List α) (m n : Nat) (x d : α)
    (h : m ≠ n) : (l.set m x).getD n d = l.getD n d := by
  induction l generalizing m n with
  | nil => rfl
  | cons a t ih =>
    cases m with
    | zero =>
      cases n with
      | zero => exact absurd rfl h
      | succ k => rfl
    | succ j =>
      cases n with
      | zero => rfl
      | succ k =>
        simp only [List.set_cons_succ, List.getD_cons_succ]
        exact ih j k (by omega)

/-- Writing back the value read at an index is the identity. -/
theorem list_set_getD_self {α : Type} (l : List α) (n : Nat) (d : α) :
    l.set n (l.getD n d) = l := by
  induction l generalizing n with
  | nil => rfl
  | cons a t ih =>
    cases n with
    | zero => rfl
    | succ m =>
      simp only [List.set_cons_succ, List.getD_cons_succ]
      rw [ih m]

/-- `getD` on a `replicate` list. -/
theorem list_getD_replicate {α : Type} (n : Nat) (a : α) (i : Nat) (d : α) :
    (List.replicate n a).getD i d = if i < n then a else d := by
  induction n generalizing i with
  | zero => simp
  | succ m ih =>
    cases i with
    | zero => simp [List.replicate]
    | succ j =>
      simp only [List.replicate, List.getD_cons_succ, ih j]
      congr 1
      simp only [eq_iff_iff]
      omega

/-- An in-range `getD` is a member of the list. -/
theorem list_getD_mem {α : Type} (l : List α) (n : Nat) (d : α)
    (h : n < l.length) : l.getD n d ∈ l := by
  induction l generalizing n with
  | nil => simp at h
  | cons a t ih =>
    cases n with
    | zero => simp [List.getD_cons_zero]
    | succ m =>
      simp only [List.getD_cons_succ]
      exact List.mem_cons_of_mem a (ih m (by simpa using h))

/-! ## Visited-mask lemmas -/

/-- The visited mask has exactly the dimensions the solver's fields declare. -/
def VDims (s : BoggleSolver) (v : List (List Bool)) : Prop :=
  v.length = s.rows.toNat ∧ ∀ row ∈ v, row.length = s.cols.toNat

/-- The board has exactly the dimensions the solver's fields declare. -/
def BDims (s : BoggleSolver) : Prop :=
  s.board.length = s.rows.toNat ∧ ∀ row ∈ s.board, row.length = s.cols.toNat

theorem getV_setV_self (v : List (List Bool)) (r c : Int) (b : Bool)
    (hrl : r.toNat < v.length) (hcl : c.toNat < (v.getD r.toNat []).length) :
    getV (setV v r c b) r c = b := by
  unfold getV setV
  rw [list_getD_set_self _ _ _ _ hrl]
  exact list_getD_set_self _ _ _ _ hcl

theorem getV_setV_ne (v : List (List Bool)) (r c r' c' : Int) (b : Bool)
    (hr : 0 ≤ r) (hc : 0 ≤ c) (hr' : 0 ≤ r') (hc' : 0 ≤ c')
    (hne : (r', c') ≠ (r, c)) :
    getV (setV v r c b) r' c' = getV v r' c' := by
  unfold getV setV
  by_cases hrr : r'.toNat = r.toNat
  · have hre : r' = r := by omega
    have hcc : c'.toNat ≠ c.toNat := by
      have : c' ≠ c := by
        intro hce
        exact hne (by rw [hre, hce])
      omega
    by_cases hlen : r.toNat < v.length
    · rw [hrr, list_getD_set_self _ _ _ _ hlen,
        list_getD_set_ne _ _ _ _ _ (by omega)]
    · rw [List.set_eq_of_length_le (by omega)]
  · rw [list_getD_set_ne _ _ _ _ _ (by omega)]

theorem setV_setV (v : List (List Bool)) (r c : Int) (b b' : Bool) :
    setV (setV v r c b) r c b' = setV v r c b' := by
  unfold setV
  by_cases hlen : r.toNat < v.length
  · rw [list_getD_set_self _ _ _ _ hlen, List.set_set, List.set_set]
  · have h1 : v.set r.toNat ((v.getD r.toNat []).set c.toNat b) = v :=
      List.set_eq_of_length_le (by omega)
    rw [h1]

theorem setV_getV_cancel (v : List (List Bool)) (r c : Int) :
    setV v r c (getV v r c) = v := by
  unfold setV getV
  rw [list_set_getD_self, list_set_getD_self]

theorem setV_false_of_getV_false (v : List (List Bool)) (r c : Int)
    (h : getV v r c = false) : setV v r c false = v := by
  have := setV_getV_cancel v r c
  rwa [h] at this

/-- The initial mask is all-false (also at out-of-range coordinates, where the
total getter returns the default). -/
theorem getV_initVisited (s : BoggleSolver) (r c : Int) :
    getV s.initVisited r c = false := by
  unfold getV BoggleSolver.initVisited
  rw [list_getD_replicate]
  by_cases h : r.toNat < s.rows.toNat
  · simp only [h, if_true]
    rw [list_getD_replicate]
    by_cases h2 : c.toNat < s.cols.toNat <;> simp [h2]
  · simp [h]

theorem initVisited_vdims (s : BoggleSolver) : VDims s s.initVisited := by
  constructor
  · simp [BoggleSolver.initVisited]
  · intro row hrow
    have := List.eq_of_mem_replicate hrow
    simp [this]

theorem setV_vdims (s : BoggleSolver) (v : List (List Bool)) (r c : Int) (b : Bool)
    (hv : VDims s v) : VDims s (setV v r c b) := by
  obtain ⟨h1, h2⟩ := hv
  constructor
  · simp [setV, h1]
  · intro row hrow
    by_cases hlen : r.toNat < v.length
    · rcases List.mem_or_eq_of_mem_set hrow with h | h
      · exact h2 _ h
      · subst h
        rw [List.length_set]
        exact h2 _ (list_getD_mem _ _ _ hlen)
    · rw [setV, List.set_eq_of_length_le (by omega)] at hrow
      exact h2 _ hrow

/-! ## The visited mask is restored by every `dfs` call -/

/-- Auxiliary strong-induction form of `dfs_visited_eq`. -/
theorem dfs_visited_eq_aux (s : BoggleSolver) :
    ∀ (n : Nat) (node : TrieNode), sizeOf node < n →
      ∀ (r c : Int) (path : List Char) (visited : List (List Bool))
        (found : List (List Char)),
        (s.dfs r c node path visited found).1 = visited := by
  intro n
  induction n with
  | zero => intro node h; omega
  | succ m ih =>
    intro node hsz r c path visited found
    rw [BoggleSolver.dfs]
    split
    · rfl
    · rename_i hguard
      simp only []
      split
      · rfl
      · rename_i next h
        have hlt : sizeOf next < m := by
          have := sizeOf_find h
          omega
        simp only [ih next hlt]
        rw [setV_setV]
        apply setV_false_of_getV_false
        simp only [not_or] at hguard
        rcases hguard with ⟨-, -, -, -, h5⟩
        simpa using h5

/-- Every `dfs` call returns the visited mask exactly as it received it:
each cell marked on entry is unmarked on every exit path. -/
theorem dfs_visited_eq (s : BoggleSolver) (r c : Int) (node : TrieNode)
    (path : List Char) (visited : List (List Bool)) (found : List (List Char)) :
    (s.dfs r c node path visited found).1 = visited :=
  dfs_visited_eq_aux s (sizeOf node + 1) node (by omega) r c path visited found

/-- The full starting-cell scan leaves the mask in its initial all-false state. -/
theorem runSearch_visited_eq (s : BoggleSolver) :
    s.runSearch.1 = s.initVisited := by
  unfold BoggleSolver.runSearch
  generalize hGen : (s.initVisited, ([] : List (List Char))) = st0
  have h0 : st0.1 = s.initVisited := by rw [← hGen]
  clear hGen
  induction (List.range s.rows.toNat) generalizing st0 with
  | nil => simpa using h0
  | cons r rs ihr =>
    rw [List.foldl_cons]
    apply ihr
    generalize st0 = st1 at h0 ⊢
    induction (List.range s.cols.toNat) generalizing st1 with
    | nil => simpa using h0
    | cons c cs ihc =>
      rw [List.foldl_cons]
      apply ihc
      rw [dfs_visited_eq]
      exact h0

/-! ## Trie lemmas -/

theorem findChild_updateChild_self (l : List (Char × TrieNode)) (c : Char)
    (u : TrieNode) : findChild (updateChild l c u) c = some u := by
  induction l with
  | nil => simp [updateChild, findChild]
  | cons p rest ih =>
    obtain ⟨c', t⟩ := p
    by_cases hc : c' = c
    · simp [updateChild, findChild, hc]
    · simp [updateChild, findChild, hc, ih]

theorem findChild_updateChild_ne (l : List (Char × TrieNode)) (c c' : Char)
    (u : TrieNode) (h : c' ≠ c) :
    findChild (updateChild l c u) c' = findChild l c' := by
  induction l with
  | nil =>
    simp only [updateChild, findChild]
    rw [if_neg (fun he => h he.symm)]
  | cons p rest ih =>
    obtain ⟨a, t⟩ := p
    by_cases ha : a = c
    · subst ha
      simp only [updateChild, if_pos rfl, findChild]
      rw [if_neg (fun he => h he.symm), if_neg (fun he => h he.symm)]
    · simp only [updateChild, if_neg ha, findChild]
      by_cases ha' : a = c'
      · rw [if_pos ha', if_pos ha']
      · rw [if_neg ha', if_neg ha', ih]

theorem updateChild_updateChild (l : List (Char × TrieNode)) (c : Char)
    (u u' : TrieNode) :
    updateChild (updateChild l c u) c u' = updateChild l c u' := by
  induction l with
  | nil => simp [updateChild]
  | cons p rest ih =>
    obtain ⟨a, t⟩ := p
    by_cases ha : a = c
    · simp [updateChild, ha]
    · simp [updateChild, ha, ih]

theorem empty_accepts (x : List Char) : TrieNode.empty.accepts x = false := by
  cases x with
  | nil => rfl
  | cons c cs => rfl

theorem accepts_nil (t : TrieNode) : t.accepts [] = t.is_word := rfl

theorem accepts_cons (t : TrieNode) (c : Char) (cs : List Char) :
    t.accepts (c :: cs) =
      match t.find c with
      | none => false
      | some u => u.accepts cs := rfl

theorem insert_children (t : TrieNode) (c : Char) (cs : List Char) :
    (t.insert (c :: cs)).children =
      updateChild t.children c (((t.find c).getD TrieNode.empty).insert cs) := by
  cases t with
  | mk l w => rfl

theorem insert_is_word_cons (t : TrieNode) (c : Char) (cs : List Char) :
    (t.insert (c :: cs)).is_word = t.is_word := by
  cases t with
  | mk l w => rfl

theorem insert_nil_eq (t : TrieNode) : t.insert [] = .mk t.children true := by
  cases t with
  | mk l w => rfl

theorem find_insert_self (t : TrieNode) (c : Char) (cs : List Char) :
    (t.insert (c :: cs)).find c =
      some (((t.find c).getD TrieNode.empty).insert cs) := by
  rw [TrieNode.find, insert_children]
  exact findChild_updateChild_self _ _ _

theorem find_insert_ne (t : TrieNode) (c c' : Char) (cs : List Char)
    (h : c' ≠ c) : (t.insert (c :: cs)).find c' = t.find c' := by
  rw [TrieNode.find, insert_children]
  exact findChild_updateChild_ne _ _ _ _ h

/-- `insert` adds exactly the inserted word to the accepted set. -/
theorem accepts_insert (w : List Char) : ∀ (t : TrieNode) (x : List Char),
    ((t.insert w).accepts x = true) ↔ (x = w ∨ t.accepts x = true) := by
  induction w with
  | nil =>
    intro t x
    cases x with
    | nil => simp [insert_nil_eq t, accepts_nil, TrieNode.is_word]
    | cons c cs =>
      rw [insert_nil_eq t, accepts_cons, accepts_cons]
      have hf : (TrieNode.mk t.children true).find c = t.find c := rfl
      rw [hf]
      simp
  | cons a as ih =>
    intro t x
    cases x with
    | nil =>
      rw [accepts_nil, accepts_nil, insert_is_word_cons]
      simp
    | cons c cs =>
      by_cases hc : c = a
      · subst hc
        rw [accepts_cons, find_insert_self, accepts_cons]
        cases hfind : t.find c with
        | none =>
          simp only [Option.getD_none, Option.getD_some]
          rw [ih TrieNode.empty cs]
          simp [empty_accepts]
        | some u =>
          simp only [Option.getD_some]
          rw [ih u cs]
          simp
      · rw [accepts_cons, find_insert_ne t a c as hc, accepts_cons]
        have : ¬(c :: cs = a :: as) := by simp [hc]
        simp [this]

/-- Repeated insertion of the same word is a no-op: the two tries are equal. -/
theorem insert_idem (w : List Char) : ∀ (t : TrieNode),
    (t.insert w).insert w = t.insert w := by
  induction w with
  | nil =>
    intro t
    rw [insert_nil_eq, insert_nil_eq]
    rfl
  | cons a as ih =>
    intro t
    have hfind := find_insert_self t a as
    cases ht1 : t.insert (a :: as) with
    | mk l w =>
      rw [← ht1]
      cases ht2 : (t.insert (a :: as)).insert (a :: as) with
      | mk l2 w2 =>
        rw [← ht2]
        have hch : ((t.insert (a :: as)).insert (a :: as)).children =
            (t.insert (a :: as)).children := by
          rw [insert_children (t.insert (a :: as)) a as, hfind]
          simp only [Option.getD_some]
          rw [insert_children t a as, ih, updateChild_updateChild]
        have hw : ((t.insert (a :: as)).insert (a :: as)).is_word =
            (t.insert (a :: as)).is_word := insert_is_word_cons _ a as
        cases h3 : (t.insert (a :: as)).insert (a :: as) with
        | mk l3 w3 =>
          cases h4 : t.insert (a :: as) with
          | mk l4 w4 =>
            rw [h3, h4] at hch hw
            simp only [TrieNode.children, TrieNode.is_word] at hch hw
            rw [hch, hw]

/-! ## The trie built by `new` accepts exactly the normalized dictionary -/

theorem loadWords_nil : loadWords [] = [] := rfl

theorem loadWords_cons (d : List Char) (ds : List (List Char)) :
    loadWords (d :: ds) =
      (if 3 ≤ (trimWord d).length ∧ (trimWord d).length ≤ 16 then
        [(trimWord d).map Char.toUpper] else []) ++ loadWords ds := by
  by_cases hc : 3 ≤ (trimWord d).length ∧ (trimWord d).length ≤ 16
  · simp [loadWords, hc]
  · simp [loadWords, hc]

theorem foldl_insertLine_accepts (w : List Char) :
    ∀ (dict : List (List Char)) (t : TrieNode),
      ((dict.foldl insertLine t).accepts w = true) ↔
        (t.accepts w = true ∨ w ∈ loadWords dict) := by
  intro dict
  induction dict with
  | nil => simp [loadWords_nil]
  | cons d ds ih =>
    intro t
    rw [List.foldl_cons, ih, loadWords_cons]
    by_cases hc : 3 ≤ (trimWord d).length ∧ (trimWord d).length ≤ 16
    · rw [insertLine, if_pos hc, accepts_insert]
      simp only [if_pos hc, List.cons_append, List.nil_append, List.mem_cons]
      tauto
    · rw [insertLine, if_neg hc]
      simp only [if_neg hc, List.nil_append]

/-- The trie built from the dictionary accepts exactly the trimmed,
length-filtered, uppercased words. -/
theorem buildTrie_accepts (dict : List (List Char)) (w : List Char) :
    ((buildTrie dict).accepts w = true) ↔ w ∈ loadWords dict := by
  rw [buildTrie, foldl_insertLine_accepts, empty_accepts]
  simp

theorem loadWords_length {dict : List (List Char)} {w : List Char}
    (h : w ∈ loadWords dict) : 3 ≤ w.length ∧ w.length ≤ 16 := by
  simp only [loadWords, List.mem_map, List.mem_filter, List.mem_map] at h
  obtain ⟨v, ⟨⟨l, -, -⟩, hf⟩, hw⟩ := h
  rw [← hw, List.length_map]
  exact of_decide_eq_true hf

/-- When every dictionary line is filtered out, the trie stays empty. -/
theorem buildTrie_eq_empty {dict : List (List Char)}
    (h : ∀ w ∈ dict, (trimWord w).length < 3 ∨ 16 < (trimWord w).length) :
    buildTrie dict = TrieNode.empty := by
  rw [buildTrie]
  induction dict with
  | nil => rfl
  | cons d ds ih =>
    rw [List.foldl_cons, insertLine,
      if_neg (by rcases h d (by simp) with h1 | h1 <;> omega)]
    exact ih (fun w hw => h w (List.mem_cons_of_mem d hw))

/-! ## Found-set lemmas: `insertWord`, adjacency, and the reach predicate -/

theorem insertWord_mem (f : List (List Char)) (w x : List Char) :
    x ∈ insertWord f w ↔ (x ∈ f ∨ x = w) := by
  unfold insertWord
  split
  · rename_i hw
    constructor
    · exact Or.inl
    · rintro (h | h)
      · exact h
      · exact h ▸ hw
  · simp

theorem insertWord_nodup (f : List (List Char)) (w : List Char)
    (h : f.Nodup) : (insertWord f w).Nodup := by
  unfold insertWord
  split
  · exact h
  · rename_i hw
    simp [List.nodup_append, h, hw]

set_option maxHeartbeats 1000000 in
/-- The eight neighbours, spelled out. -/
theorem adj_iff (p q : Int × Int) : adj p q ↔
    (q = (p.1 - 1, p.2 - 1) ∨ q = (p.1 - 1, p.2) ∨ q = (p.1 - 1, p.2 + 1) ∨
     q = (p.1, p.2 - 1) ∨ q = (p.1, p.2 + 1) ∨
     q = (p.1 + 1, p.2 - 1) ∨ q = (p.1 + 1, p.2) ∨ q = (p.1 + 1, p.2 + 1)) := by
  obtain ⟨a, b⟩ := p
  obtain ⟨x, y⟩ := q
  simp only [adj, neighborOffsets, List.map_cons, List.map_nil, List.mem_cons,
    List.not_mem_nil, or_false, Prod.mk.injEq]
  omega

/-- Quantifying a predicate over the neighbours of `(r, c)` is the eightfold
disjunction at the offsets, in the `dfs` call order. -/
theorem exists_adj_iff (r c : Int) (P : Int × Int → Prop) :
    (∃ q, adj (r, c) q ∧ P q) ↔
      (P (r - 1, c - 1) ∨ P (r - 1, c) ∨ P (r - 1, c + 1) ∨
       P (r, c - 1) ∨ P (r, c + 1) ∨
       P (r + 1, c - 1) ∨ P (r + 1, c) ∨ P (r + 1, c + 1)) := by
  constructor
  · rintro ⟨q, hadj, hp⟩
    rcases (adj_iff _ _).mp hadj with h | h | h | h | h | h | h | h <;>
      subst h <;> tauto
  · intro h
    rcases h with h | h | h | h | h | h | h | h <;>
      exact ⟨_, (adj_iff _ _).mpr (by tauto), h⟩

/-- `Reach s v node path p x`: starting the search at cell `p` with trie
position `node` and accumulated `path`, the word `x` is discoverable — there is
a trie-accepted suffix `w` spelled by a valid path of unvisited cells headed
at `p` with `x = path ++ w`. -/
def Reach (s : BoggleSolver) (v : List (List Bool)) (node : TrieNode)
    (path : List Char) (p : Int × Int) (x : List Char) : Prop :=
  ∃ w cells, x = path ++ w ∧ node.accepts w = true ∧
    cells.head? = some p ∧ GoodPath s v cells w

/-- A reachable word forces its head cell to be in bounds, unvisited, and its
letter present among the node's children. -/
theorem reach_head {s : BoggleSolver} {v : List (List Bool)} {node : TrieNode}
    {path : List Char} {r c : Int} {x : List Char}
    (h : Reach s v node path (r, c) x) :
    inBounds s (r, c) ∧ getV v r c = false ∧
      ∃ u, node.find (getCell s.board r c) = some u := by
  obtain ⟨w, cells, hx, hacc, hhead, hmap, hnodup, hchain, hmem⟩ := h
  cases cells with
  | nil => simp at hhead
  | cons p0 rest =>
    have hp0 : p0 = (r, c) := by simpa using hhead
    subst hp0
    have hm := hmem (r, c) (by simp)
    refine ⟨hm.1, hm.2, ?_⟩
    rw [hmap, List.map_cons, accepts_cons] at hacc
    cases hfind : node.find (getCell s.board r c) with
    | none =>
      rw [show getCell s.board ((r, c) : Int × Int).1 ((r, c) : Int × Int).2 =
        getCell s.board r c from rfl, hfind] at hacc
      simp at hacc
    | some u => exact ⟨u, rfl⟩

theorem accepts_cons_some {t u : TrieNode} {c : Char} (h : t.find c = some u)
    (cs : List Char) : t.accepts (c :: cs) = u.accepts cs := by
  rw [accepts_cons, h]

theorem getV_setV_true {s : BoggleSolver} {v : List (List Bool)}
    (hdims : VDims s v) {r c : Int} (hb : inBounds s (r, c)) (b : Bool) :
    getV (setV v r c b) r c = b := by
  have hb' : 0 ≤ r ∧ r < s.rows ∧ 0 ≤ c ∧ c < s.cols := hb
  have hlen : r.toNat < v.length := by
    rw [hdims.1]
    omega
  apply getV_setV_self v r c b hlen
  have hrow := hdims.2 _ (list_getD_mem v r.toNat [] hlen)
  rw [hrow]
  omega

/-- Composition step: a word reachable from a neighbour `q` after marking
`(r, c)` is reachable from `(r, c)` itself. -/
theorem reach_step {s : BoggleSolver} {v : List (List Bool)} {node next : TrieNode}
    {path : List Char} {r c : Int} {q : Int × Int} {x : List Char}
    (hdims : VDims s v) (hb : inBounds s (r, c)) (hnv : getV v r c = false)
    (hfind : node.find (getCell s.board r c) = some next)
    (hadj : adj (r, c) q)
    (hr : Reach s (setV v r c true) next (path ++ [getCell s.board r c]) q x) :
    Reach s v node path (r, c) x := by
  obtain ⟨w, cells, hx, hacc, hhead, hmap, hnodup, hchain, hmem⟩ := hr
  cases cells with
  | nil => simp at hhead
  | cons q0 rest =>
  have hq0 : q0 = q := by simpa using hhead
  subst hq0
  have hb' : 0 ≤ r ∧ r < s.rows ∧ 0 ≤ c ∧ c < s.cols := hb
  have hvtrue : getV (setV v r c true) r c = true := getV_setV_true hdims hb true
  have hnotmem : ((r, c) : Int × Int) ∉ (q0 :: rest) := by
    intro hmem2
    have hfalse := (hmem _ hmem2).2
    rw [hvtrue] at hfalse
    simp at hfalse
  refine ⟨getCell s.board r c :: w, (r, c) :: q0 :: rest, ?_, ?_, rfl, ?_, ?_, ?_, ?_⟩
  · rw [hx, List.append_assoc]
    rfl
  · rw [accepts_cons_some hfind]
    exact hacc
  · simp [hmap]
  · exact List.nodup_cons.mpr ⟨hnotmem, hnodup⟩
  · exact List.chain'_cons.mpr ⟨hadj, hchain⟩
  · intro p hp
    rcases List.mem_cons.mp hp with hp1 | hp2
    · subst hp1
      exact ⟨hb, hnv⟩
    · have hmv := hmem p hp2
      refine ⟨hmv.1, ?_⟩
      have hpb : 0 ≤ p.1 ∧ p.1 < s.rows ∧ 0 ≤ p.2 ∧ p.2 < s.cols := hmv.1
      have hpne : p ≠ (r, c) := by
        intro he
        exact hnotmem (he ▸ hp2)
      have hne2 : ((p.1, p.2) : Int × Int) ≠ (r, c) := by
        rw [Prod.mk.eta]
        exact hpne
      have := getV_setV_ne v r c p.1 p.2 true (by omega) (by omega)
        (by omega) (by omega) hne2
      rw [← this]
      exact hmv.2

/-- Decomposition step: a word reachable from `(r, c)` is either the extended
path itself (when the child is terminal) or reachable from some neighbour
after marking `(r, c)`. -/
theorem reach_unstep {s : BoggleSolver} {v : List (List Bool)}
    {node next : TrieNode} {path : List Char} {r c : Int} {x : List Char}
    (hfind : node.find (getCell s.board r c) = some next)
    (hr : Reach s v node path (r, c) x) :
    (next.is_word = true ∧ x = path ++ [getCell s.board r c]) ∨
      ∃ q, adj (r, c) q ∧
        Reach s (setV v r c true) next (path ++ [getCell s.board r c]) q x := by
  obtain ⟨w, cells, hx, hacc, hhead, hmap, hnodup, hchain, hmem⟩ := hr
  cases cells with
  | nil => simp at hhead
  | cons p0 rest =>
  have hp0 : p0 = (r, c) := by simpa using hhead
  subst hp0
  have hacc2 : node.accepts (getCell s.board r c ::
      rest.map (fun p => getCell s.board p.1 p.2)) = true := by
    rw [hmap] at hacc
    exact hacc
  rw [accepts_cons_some hfind] at hacc2
  cases rest with
  | nil =>
    left
    refine ⟨?_, ?_⟩
    · exact hacc2
    · simp [hx, hmap]
  | cons q rest2 =>
    right
    have hch := List.chain'_cons.mp hchain
    have hrcmem : ((r, c) : Int × Int) ∉ (q :: rest2) := (List.nodup_cons.mp hnodup).1
    have hrcb : 0 ≤ r ∧ r < s.rows ∧ 0 ≤ c ∧ c < s.cols := (hmem (r, c) (by simp)).1
    refine ⟨q, hch.1, (q :: rest2).map (fun p => getCell s.board p.1 p.2),
      q :: rest2, ?_, hacc2, rfl, rfl, (List.nodup_cons.mp hnodup).2, hch.2, ?_⟩
    · rw [List.append_assoc, hx, hmap]
      rfl
    · intro p hp
      have hmv := hmem p (List.mem_cons_of_mem _ hp)
      refine ⟨hmv.1, ?_⟩
      have hpb : 0 ≤ p.1 ∧ p.1 < s.rows ∧ 0 ≤ p.2 ∧ p.2 < s.cols := hmv.1
      have hpne : p ≠ (r, c) := by
        intro he
        exact hrcmem (he ▸ hp)
      have hne2 : ((p.1, p.2) : Int × Int) ≠ (r, c) := by
        rw [Prod.mk.eta]
        exact hpne
      rw [getV_setV_ne v r c p.1 p.2 true (by omega) (by omega)
        (by omega) (by omega) hne2]
      exact hmv.2

/-- Full decomposition of reachability at an unvisited in-bounds cell whose
letter has a trie child: terminal word, or continuation through one of the
eight neighbours, in the `dfs` call order. -/
theorem reach_decompose {s : BoggleSolver} {v : List (List Bool)}
    {node next : TrieNode} {path : List Char} {r c : Int} {x : List Char}
    (hdims : VDims s v) (hb : inBounds s (r, c)) (hnv : getV v r c = false)
    (hfind : node.find (getCell s.board r c) = some next) :
    Reach s v node path (r, c) x ↔
      ((next.is_word = true ∧ x = path ++ [getCell s.board r c]) ∨
        Reach s (setV v r c true) next (path ++ [getCell s.board r c]) (r - 1, c - 1) x ∨
        Reach s (setV v r c true) next (path ++ [getCell s.board r c]) (r - 1, c) x ∨
        Reach s (setV v r c true) next (path ++ [getCell s.board r c]) (r - 1, c + 1) x ∨
        Reach s (setV v r c true) next (path ++ [getCell s.board r c]) (r, c - 1) x ∨
        Reach s (setV v r c true) next (path ++ [getCell s.board r c]) (r, c + 1) x ∨
        Reach s (setV v r c true) next (path ++ [getCell s.board r c]) (r + 1, c - 1) x ∨
        Reach s (setV v r c true) next (path ++ [getCell s.board r c]) (r + 1, c) x ∨
        Reach s (setV v r c true) next (path ++ [getCell s.board r c]) (r + 1, c + 1) x) := by
  constructor
  · intro h
    rcases reach_unstep hfind h with h1 | h2
    · exact Or.inl h1
    · have h3 := (exists_adj_iff r c _).mp h2
      tauto
  · intro h
    rcases h with h | h
    · obtain ⟨hw, hx⟩ := h
      refine ⟨[getCell s.board r c], [(r, c)], by rw [hx], ?_, rfl, rfl, by simp,
        by simp, ?_⟩
      · rw [accepts_cons_some hfind, accepts_nil]
        exact hw
      · intro p hp
        have hp1 : p = (r, c) := by simpa using hp
        subst hp1
        exact ⟨hb, hnv⟩
    · have h2 : ∃ q, adj (r, c) q ∧
          Reach s (setV v r c true) next (path ++ [getCell s.board r c]) q x :=
        (exists_adj_iff r c _).mpr (by tauto)
      obtain ⟨q, hadj, hr⟩ := h2
      exact reach_step hdims hb hnv hfind hadj hr

/-! ## The `dfs` found-set characterization -/

set_option maxHeartbeats 2000000 in
/-- Auxiliary strong-induction form: after a `dfs` call the found set holds
exactly the prior words plus those reachable from the entry cell. -/
theorem dfs_found_iff_aux (s : BoggleSolver) :
    ∀ (n : Nat) (node : TrieNode), sizeOf node < n →
      ∀ (r c : Int) (path : List Char) (visited : List (List Bool))
        (found : List (List Char)), VDims s visited →
        ∀ (x : List Char),
          (x ∈ (s.dfs r c node path visited found).2 ↔
            x ∈ found ∨ Reach s visited node path (r, c) x) := by
  intro n
  induction n with
  | zero => intro node h; omega
  | succ m ih =>
    intro node hsz r c path visited found hdims x
    rw [BoggleSolver.dfs]
    split
    · rename_i hguard
      constructor
      · intro h
        exact Or.inl h
      · rintro (h | h)
        · exact h
        · obtain ⟨hb, hnv, -⟩ := reach_head h
          have hb2 : 0 ≤ r ∧ r < s.rows ∧ 0 ≤ c ∧ c < s.cols := hb
          rcases hguard with h1 | h1 | h1 | h1 | h1
          · omega
          · omega
          · omega
          · omega
          · rw [hnv] at h1
            simp at h1
    · rename_i hguard
      simp only []
      split
      · rename_i hfind
        constructor
        · intro h2
          exact Or.inl h2
        · rintro (h2 | h2)
          · exact h2
          · obtain ⟨-, -, u, hu⟩ := reach_head h2
            rw [hfind] at hu
            simp at hu
      · rename_i next hfind
        simp only [not_or] at hguard
        obtain ⟨g1, g2, g3, g4, g5⟩ := hguard
        have hnv : getV visited r c = false := by simpa using g5
        have hb : inBounds s (r, c) :=
          show 0 ≤ r ∧ r < s.rows ∧ 0 ≤ c ∧ c < s.cols from
            ⟨by omega, by omega, by omega, by omega⟩
        have hlt : sizeOf next < m := by
          have := sizeOf_find hfind
          omega
        have hdims1 : VDims s (setV visited r c true) :=
          setV_vdims s visited r c true hdims
        simp only [dfs_visited_eq]
        rw [ih next hlt (r + 1) (c + 1) _ _ _ hdims1 x,
          ih next hlt (r + 1) c _ _ _ hdims1 x,
          ih next hlt (r + 1) (c - 1) _ _ _ hdims1 x,
          ih next hlt r (c + 1) _ _ _ hdims1 x,
          ih next hlt r (c - 1) _ _ _ hdims1 x,
          ih next hlt (r - 1) (c + 1) _ _ _ hdims1 x,
          ih next hlt (r - 1) c _ _ _ hdims1 x,
          ih next hlt (r - 1) (c - 1) _ _ _ hdims1 x,
          reach_decompose hdims hb hnv hfind]
        by_cases hw : next.is_word = true
        · rw [if_pos hw, insertWord_mem]
          tauto
        · rw [if_neg hw]
          tauto

/-- The found list stays duplicate-free through every `dfs` call. -/
theorem dfs_nodup_aux (s : BoggleSolver) :
    ∀ (n : Nat) (node : TrieNode), sizeOf node < n →
      ∀ (r c : Int) (path : List Char) (visited : List (List Bool))
        (found : List (List Char)), found.Nodup →
        ((s.dfs r c node path visited found).2).Nodup := by
  intro n
  induction n with
  | zero => intro node h; omega
  | succ m ih =>
    intro node hsz r c path visited found hnd
    rw [BoggleSolver.dfs]
    split
    · exact hnd
    · simp only []
      split
      · exact hnd
      · rename_i next hfind
        have hlt : sizeOf next < m := by
          have := sizeOf_find hfind
          omega
        apply ih next hlt
        apply ih next hlt
        apply ih next hlt
        apply ih next hlt
        apply ih next hlt
        apply ih next hlt
        apply ih next hlt
        apply ih next hlt
        by_cases hw : next.is_word = true
        · rw [if_pos hw]
          exact insertWord_nodup _ _ hnd
        · rw [if_neg hw]
          exact hnd

/-- Wrapper without the explicit size bound. -/
theorem dfs_found_iff (s : BoggleSolver) (r c : Int) (node : TrieNode)
    (path : List Char) (visited : List (List Bool)) (found : List (List Char))
    (hdims : VDims s visited) (x : List Char) :
    x ∈ (s.dfs r c node path visited found).2 ↔
      x ∈ found ∨ Reach s visited node path (r, c) x :=
  dfs_found_iff_aux s (sizeOf node + 1) node (by omega) r c path visited found hdims x

/-- Wrapper without the explicit size bound. -/
theorem dfs_nodup (s : BoggleSolver) (r c : Int) (node : TrieNode)
    (path : List Char) (visited : List (List Bool)) (found : List (List Char))
    (h : found.Nodup) : ((s.dfs r c node path visited found).2).Nodup :=
  dfs_nodup_aux s (sizeOf node + 1) node (by omega) r c path visited found h

/-- Against the all-false mask, the generalized path predicate is the plain
spelling predicate. -/
theorem GoodPath_initVisited (s : BoggleSolver) (cells : List (Int × Int))
    (w : List Char) :
    GoodPath s s.initVisited cells w ↔ SpellsPath s cells w := by
  unfold GoodPath SpellsPath
  simp only [getV_initVisited, and_true]

/-- Membership after the inner (column) fold of `runSearch`. -/
theorem fold_cols_found (s : BoggleSolver) (r : Nat) :
    ∀ (cs : List Nat) (st : List (List Bool) × List (List Char)),
      st.1 = s.initVisited →
      ((cs.foldl (fun st2 (c : Nat) => s.dfs (r : Int) (c : Int) s.trie [] st2.1 st2.2) st).1
          = s.initVisited ∧
        ∀ x, (x ∈ (cs.foldl
            (fun st2 (c : Nat) => s.dfs (r : Int) (c : Int) s.trie [] st2.1 st2.2) st).2 ↔
          x ∈ st.2 ∨ ∃ c ∈ cs,
            Reach s s.initVisited s.trie [] ((r : Int), (c : Int)) x)) := by
  intro cs
  induction cs with
  | nil =>
    intro st h1
    exact ⟨h1, by simp⟩
  | cons c cs ihc =>
    intro st h1
    rw [List.foldl_cons]
    obtain ⟨ha, hb⟩ := ihc (s.dfs (r : Int) (c : Int) s.trie [] st.1 st.2)
      (by rw [dfs_visited_eq]; exact h1)
    refine ⟨ha, ?_⟩
    intro x
    rw [hb x, dfs_found_iff s _ _ _ _ _ _ (by rw [h1]; exact initVisited_vdims s) x, h1]
    simp only [List.mem_cons, exists_eq_or_imp]
    tauto

/-- Membership after the outer (row) fold of `runSearch`. -/
theorem fold_rows_found (s : BoggleSolver) :
    ∀ (rs : List Nat) (st : List (List Bool) × List (List Char)),
      st.1 = s.initVisited →
      ((rs.foldl (fun st (r : Nat) => (List.range s.cols.toNat).foldl
          (fun st2 (c : Nat) => s.dfs (r : Int) (c : Int) s.trie [] st2.1 st2.2) st) st).1
          = s.initVisited ∧
        ∀ x, (x ∈ (rs.foldl (fun st (r : Nat) => (List.range s.cols.toNat).foldl
            (fun st2 (c : Nat) => s.dfs (r : Int) (c : Int) s.trie [] st2.1 st2.2) st) st).2 ↔
          x ∈ st.2 ∨ ∃ r ∈ rs, ∃ c ∈ List.range s.cols.toNat,
            Reach s s.initVisited s.trie [] ((r : Int), (c : Int)) x)) := by
  intro rs
  induction rs with
  | nil =>
    intro st h1
    exact ⟨h1, by simp⟩
  | cons r rs ihr =>
    intro st h1
    rw [List.foldl_cons]
    obtain ⟨hia, hib⟩ := fold_cols_found s r (List.range s.cols.toNat) st h1
    obtain ⟨ha, hb⟩ := ihr _ hia
    refine ⟨ha, ?_⟩
    intro x
    rw [hb x, hib x]
    simp only [List.mem_cons, exists_eq_or_imp]
    exact or_assoc

/-- Top-level reachability over all starting cells is exactly trie acceptance
plus spellability. -/
theorem reach_top_iff (s : BoggleSolver) (x : List Char) :
    (∃ r ∈ List.range s.rows.toNat, ∃ c ∈ List.range s.cols.toNat,
        Reach s s.initVisited s.trie [] ((r : Int), (c : Int)) x) ↔
      (s.trie.accepts x = true ∧ Spellable s x) := by
  constructor
  · rintro ⟨r, hr, c, hc, w, cells, hx, hacc, hhead, hgood⟩
    rw [GoodPath_initVisited] at hgood
    simp only [List.nil_append] at hx
    subst hx
    refine ⟨hacc, cells, ?_, hgood⟩
    cases cells with
    | nil => simp at hhead
    | cons p rest => simp
  · rintro ⟨hacc, cells, hne, hsp⟩
    cases cells with
    | nil => exact absurd rfl hne
    | cons p rest =>
      obtain ⟨hmap, hnodup, hchain, hmem⟩ := hsp
      have hpb : 0 ≤ p.1 ∧ p.1 < s.rows ∧ 0 ≤ p.2 ∧ p.2 < s.cols := hmem p (by simp)
      have h1 : ((p.1.toNat : Int)) = p.1 := by omega
      have h2 : ((p.2.toNat : Int)) = p.2 := by omega
      refine ⟨p.1.toNat, by simp [List.mem_range]; omega,
        p.2.toNat, by simp [List.mem_range]; omega,
        x, p :: rest, (List.nil_append x).symm, hacc, ?_, ?_⟩
      · simp [h1, h2]
      · rw [GoodPath_initVisited]
        exact ⟨hmap, hnodup, hchain, hmem⟩

/-- The found set of the whole search: a word is found exactly when the trie
accepts it and some non-repeating 8-adjacent in-bounds path spells it. -/
theorem runSearch_found_iff (s : BoggleSolver) (x : List Char) :
    x ∈ s.runSearch.2 ↔ (s.trie.accepts x = true ∧ Spellable s x) := by
  unfold BoggleSolver.runSearch
  obtain ⟨-, hb⟩ := fold_rows_found s (List.range s.rows.toNat)
    (s.initVisited, []) rfl
  rw [hb x, ← reach_top_iff s x]
  simp

/-- The found list of the whole search has no duplicates. -/
theorem runSearch_nodup (s : BoggleSolver) : s.runSearch.2.Nodup := by
  unfold BoggleSolver.runSearch
  have key2 : ∀ (r : Nat) (cs : List Nat) (st : List (List Bool) × List (List Char)),
      st.2.Nodup →
      ((cs.foldl (fun st2 (c : Nat) => s.dfs (r : Int) (c : Int) s.trie [] st2.1 st2.2)
        st).2).Nodup := by
    intro r cs
    induction cs with
    | nil => intro st h; exact h
    | cons c cs ihc =>
      intro st h
      rw [List.foldl_cons]
      exact ihc _ (dfs_nodup s _ _ _ _ _ _ h)
  have key : ∀ (rs : List Nat) (st : List (List Bool) × List (List Char)),
      st.2.Nodup →
      ((rs.foldl (fun st (r : Nat) => (List.range s.cols.toNat).foldl
        (fun st2 (c : Nat) => s.dfs (r : Int) (c : Int) s.trie [] st2.1 st2.2) st) st).2).Nodup := by
    intro rs
    induction rs with
    | nil => intro st h; exact h
    | cons r rs ihr =>
      intro st h
      rw [List.foldl_cons]
      exact ihr _ (key2 r _ _ h)
  exact key _ _ (by simp)

/-! ## The ranking comparator -/

theorem lexLt_irrefl : ∀ (a : List Char), lexLt a a = false := by
  intro a
  induction a with
  | nil => rfl
  | cons x xs ih => simp [lexLt, lt_irrefl, ih]

theorem lexLt_cases : ∀ (a b : List Char),
    lexLt a b = true ∨ a = b ∨ lexLt b a = true := by
  intro a
  induction a with
  | nil =>
    intro b
    cases b with
    | nil => right; left; rfl
    | cons y ys => left; rfl
  | cons x xs ih =>
    intro b
    cases b with
    | nil => right; right; rfl
    | cons y ys =>
      rcases lt_trichotomy x y with h | h | h
      · left
        simp [lexLt, h]
      · subst h
        rcases ih ys with h2 | h2 | h2
        · left
          simp [lexLt, lt_irrefl, h2]
        · right; left
          rw [h2]
        · right; right
          simp [lexLt, lt_irrefl, h2]
      · right; right
        simp [lexLt, h]

theorem lexLt_asymm : ∀ (a b : List Char), lexLt a b = true → lexLt b a = false := by
  intro a
  induction a with
  | nil =>
    intro b h
    cases b with
    | nil => simp [lexLt] at h
    | cons y ys => rfl
  | cons x xs ih =>
    intro b h
    cases b with
    | nil => simp [lexLt] at h
    | cons y ys =>
      by_cases h1 : x < y
      · have h2 : ¬ y < x := lt_asymm h1
        simp [lexLt, h1, h2]
      · by_cases h2 : y < x
        · simp [lexLt, h1, h2] at h
        · simp [lexLt, h1, h2] at h ⊢
          exact ih ys h

theorem lexLt_false_iff (a b : List Char) :
    lexLt b a = false ↔ (a = b ∨ lexLt a b = true) := by
  constructor
  · intro h
    rcases lexLt_cases a b with h2 | h2 | h2
    · right; exact h2
    · left; exact h2
    · rw [h2] at h
      cases h
  · rintro (h | h)
    · subst h
      exact lexLt_irrefl a
    · exact lexLt_asymm a b h

theorem lexLt_trans : ∀ (a b c : List Char),
    lexLt a b = true → lexLt b c = true → lexLt a c = true := by
  intro a
  induction a with
  | nil =>
    intro b c h1 h2
    cases b with
    | nil => simp [lexLt] at h1
    | cons y ys =>
      cases c with
      | nil => simp [lexLt] at h2
      | cons z zs => rfl
  | cons x xs ih =>
    intro b c h1 h2
    cases b with
    | nil => simp [lexLt] at h1
    | cons y ys =>
      cases c with
      | nil => simp [lexLt] at h2
      | cons z zs =>
        by_cases hxy : x < y
        · by_cases hyz : y < z
          · simp [lexLt, lt_trans hxy hyz]
          · by_cases hzy : z < y
            · simp [lexLt, hyz, hzy] at h2
            · have he : y = z := le_antisymm (not_lt.mp hzy) (not_lt.mp hyz)
              subst he
              simp [lexLt, hxy]
        · by_cases hyx : y < x
          · simp [lexLt, hxy, hyx] at h1
          · have he : x = y := le_antisymm (not_lt.mp hyx) (not_lt.mp hxy)
            subst he
            simp only [lexLt, if_neg (lt_irrefl x)] at h1
            by_cases hxz : x < z
            · simp [lexLt, hxz]
            · by_cases hzx : z < x
              · simp [lexLt, hxz, hzx] at h2
              · have he2 : x = z := le_antisymm (not_lt.mp hzx) (not_lt.mp hxz)
                subst he2
                simp only [lexLt, if_neg (lt_irrefl x)] at h2 ⊢
                exact ih ys zs h1 h2

theorem rankLE_total : ∀ (a b : List Char), (rankLE a b || rankLE b a) = true := by
  intro a b
  unfold rankLE
  by_cases h : a.length = b.length
  · rw [if_pos h, if_pos h.symm]
    rcases lexLt_cases a b with h2 | h2 | h2
    · have h3 := lexLt_asymm _ _ h2
      simp [h3]
    · subst h2
      simp [lexLt_irrefl]
    · have h3 := lexLt_asymm _ _ h2
      simp [h3]
  · rw [if_neg h, if_neg (fun he => h he.symm)]
    simp only [Bool.or_eq_true, decide_eq_true_eq]
    omega

theorem rankLE_trans : ∀ (a b c : List Char),
    rankLE a b = true → rankLE b c = true → rankLE a c = true := by
  intro a b c h1 h2
  unfold rankLE at h1 h2 ⊢
  by_cases hab : a.length = b.length <;> by_cases hbc : b.length = c.length
  · rw [if_pos hab] at h1
    rw [if_pos hbc] at h2
    rw [if_pos (hab.trans hbc)]
    simp only [Bool.not_eq_true'] at h1 h2 ⊢
    rw [lexLt_false_iff] at h1 h2 ⊢
    rcases h1 with h1 | h1 <;> rcases h2 with h2 | h2
    · left
      exact h1.trans h2
    · right
      rw [h1]
      exact h2
    · right
      rw [← h2]
      exact h1
    · right
      exact lexLt_trans a b c h1 h2
  · rw [if_pos hab] at h1
    rw [if_neg hbc] at h2
    rw [if_neg (by omega : ¬ a.length = c.length)]
    simp only [decide_eq_true_eq] at h2 ⊢
    omega
  · rw [if_neg hab] at h1
    rw [if_pos hbc] at h2
    rw [if_neg (by
      simp only [decide_eq_true_eq] at h1
      omega : ¬ a.length = c.length)]
    simp only [decide_eq_true_eq] at h1 ⊢
    omega
  · rw [if_neg hab] at h1
    rw [if_neg hbc] at h2
    simp only [decide_eq_true_eq] at h1 h2
    rw [if_neg (by omega : ¬ a.length = c.length)]
    simp only [decide_eq_true_eq]
    omega

theorem rankLE_antisymm : ∀ (a b : List Char),
    rankLE a b = true → rankLE b a = true → a = b := by
  intro a b h1 h2
  unfold rankLE at h1 h2
  by_cases h : a.length = b.length
  · rw [if_pos h] at h1
    rw [if_pos h.symm] at h2
    simp only [Bool.not_eq_true'] at h1 h2
    rw [lexLt_false_iff] at h1 h2
    rcases h1 with h1 | h1
    · exact h1
    · rcases h2 with h2 | h2
      · exact h2.symm
      · rw [lexLt_asymm _ _ h1] at h2
        cases h2
  · rw [if_neg h] at h1
    rw [if_neg (fun he => h he.symm)] at h2
    simp only [decide_eq_true_eq] at h1 h2
    omega

instance : IsAntisymm (List Char) (fun a b => rankLE a b = true) :=
  ⟨rankLE_antisymm⟩

/-- Two permutations of the same word set produce the same sorted list. -/
theorem mergeSort_perm_eq {l1 l2 : List (List Char)} (h : l1.Perm l2) :
    l1.mergeSort rankLE = l2.mergeSort rankLE := by
  exact @List.eq_of_perm_of_sorted (List Char) (fun a b => rankLE a b = true)
    ⟨rankLE_antisymm⟩ _ _
    ((List.mergeSort_perm l1 rankLE).trans (h.trans (List.mergeSort_perm l2 rankLE).symm))
    (List.sorted_mergeSort rankLE_trans rankLE_total l1)
    (List.sorted_mergeSort rankLE_trans rankLE_total l2)

/-! ## Bounds-checked instrumentation of `dfs` (for the memory-safety claim) -/

/-- `visited[r as usize][c as usize]` with Rust's run-time bounds checks made
explicit: `none` is an index panic (a negative coordinate cast to `usize`
wraps to a huge index, hence also a panic). -/
def getVChecked (v : List (List Bool)) (r c : Int) : Option Bool :=
  if r < 0 ∨ c < 0 then none
  else
    match v[r.toNat]? with
    | none => none
    | some row => row[c.toNat]?

/-- `self.board[r as usize][c as usize]` with bounds checks made explicit. -/
def getCellChecked (board : List (List Char)) (r c : Int) : Option Char :=
  if r < 0 ∨ c < 0 then none
  else
    match board[r.toNat]? with
    | none => none
    | some row => row[c.toNat]?

/-- `visited[r as usize][c as usize] = b` with bounds checks made explicit. -/
def setVChecked (v : List (List Bool)) (r c : Int) (b : Bool) :
    Option (List (List Bool)) :=
  if r < 0 ∨ c < 0 then none
  else
    match v[r.toNat]? with
    | none => none
    | some row =>
      if c.toNat < row.length then some (v.set r.toNat (row.set c.toNat b))
      else none

/-- `BoggleSolver::dfs` with every slice index bounds-checked, mirroring the
Rust evaluation order: the four coordinate comparisons short-circuit before
the `visited` access, and `none` propagates any out-of-bounds index. -/
def BoggleSolver.dfsChecked (s : BoggleSolver) (r c : Int) (node : TrieNode)
    (path : List Char) (visited : List (List Bool)) (found : List (List Char)) :
    Option (List (List Bool) × List (List Char)) :=
  if r < 0 ∨ r ≥ s.rows ∨ c < 0 ∨ c ≥ s.cols then some (visited, found)
  else
    match getVChecked visited r c with
    | none => none
    | some true => some (visited, found)
    | some false =>
      match getCellChecked s.board r c with
      | none => none
      | some ch =>
        match hfind : node.find ch with
        | none => some (visited, found)
        | some next =>
          match setVChecked visited r c true with
          | none => none
          | some v1 =>
            let p1 := path ++ [ch]
            let f0 := if next.is_word then insertWord found p1 else found
            match s.dfsChecked (r - 1) (c - 1) next p1 v1 f0 with
            | none => none
            | some t1 =>
              match s.dfsChecked (r - 1) c next p1 t1.1 t1.2 with
              | none => none
              | some t2 =>
                match s.dfsChecked (r - 1) (c + 1) next p1 t2.1 t2.2 with
                | none => none
                | some t3 =>
                  match s.dfsChecked r (c - 1) next p1 t3.1 t3.2 with
                  | none => none
                  | some t4 =>
                    match s.dfsChecked r (c + 1) next p1 t4.1 t4.2 with
                    | none => none
                    | some t5 =>
                      match s.dfsChecked (r + 1) (c - 1) next p1 t5.1 t5.2 with
                      | none => none
                      | some t6 =>
                        match s.dfsChecked (r + 1) c next p1 t6.1 t6.2 with
                        | none => none
                        | some t7 =>
                          match s.dfsChecked (r + 1) (c + 1) next p1 t7.1 t7.2 with
                          | none => none
                          | some t8 =>
                            match setVChecked t8.1 r c false with
                            | none => none
                            | some v2 => some (v2, t8.2)
termination_by sizeOf node
decreasing_by all_goals exact sizeOf_find hfind

/-- The starting-cell scan with every index bounds-checked. -/
def BoggleSolver.runSearchChecked (s : BoggleSolver) :
    Option (List (List Bool) × List (List Char)) :=
  (List.range s.rows.toNat).foldl
    (fun st (r : Nat) =>
      (List.range s.cols.toNat).foldl
        (fun st2 (c : Nat) =>
          match st2 with
          | none => none
          | some st2v => s.dfsChecked (r : Int) (c : Int) s.trie [] st2v.1 st2v.2) st)
    (some (s.initVisited, []))

theorem list_getElem?_some {α : Type} (l : List α) (n : Nat) (d : α)
    (h : n < l.length) : l[n]? = some (l.getD n d) := by
  induction l generalizing n with
  | nil => simp at h
  | cons a t ih =>
    cases n with
    | zero => simp
    | succ m => simpa using ih m (by simpa using h)

theorem getVChecked_eq {s : BoggleSolver} {v : List (List Bool)}
    (hdims : VDims s v) {r c : Int} (hb : inBounds s (r, c)) :
    getVChecked v r c = some (getV v r c) := by
  have hb' : 0 ≤ r ∧ r < s.rows ∧ 0 ≤ c ∧ c < s.cols := hb
  have hr : r.toNat < v.length := by
    rw [hdims.1]
    omega
  have hrow := hdims.2 _ (list_getD_mem v r.toNat [] hr)
  have hc : c.toNat < (v.getD r.toNat []).length := by
    rw [hrow]
    omega
  unfold getVChecked
  rw [if_neg (by omega), list_getElem?_some v r.toNat [] hr]
  exact list_getElem?_some (v.getD r.toNat []) c.toNat false hc

theorem getCellChecked_eq {s : BoggleSolver} (hbd : BDims s) {r c : Int}
    (hb : inBounds s (r, c)) :
    getCellChecked s.board r c = some (getCell s.board r c) := by
  have hb' : 0 ≤ r ∧ r < s.rows ∧ 0 ≤ c ∧ c < s.cols := hb
  have hr : r.toNat < s.board.length := by
    rw [hbd.1]
    omega
  have hrow := hbd.2 _ (list_getD_mem s.board r.toNat [] hr)
  have hc : c.toNat < (s.board.getD r.toNat []).length := by
    rw [hrow]
    omega
  unfold getCellChecked
  rw [if_neg (by omega), list_getElem?_some s.board r.toNat [] hr]
  exact list_getElem?_some (s.board.getD r.toNat []) c.toNat 'A' hc

theorem setVChecked_eq {s : BoggleSolver} {v : List (List Bool)}
    (hdims : VDims s v) {r c : Int} (hb : inBounds s (r, c)) (b : Bool) :
    setVChecked v r c b = some (setV v r c b) := by
  have hb' : 0 ≤ r ∧ r < s.rows ∧ 0 ≤ c ∧ c < s.cols := hb
  have hr : r.toNat < v.length := by
    rw [hdims.1]
    omega
  have hrow := hdims.2 _ (list_getD_mem v r.toNat [] hr)
  have hc : c.toNat < (v.getD r.toNat []).length := by
    rw [hrow]
    omega
  unfold setVChecked setV
  rw [if_neg (by omega), list_getElem?_some v r.toNat [] hr]
  show (if c.toNat < (v.getD r.toNat []).length then
      some (v.set r.toNat ((v.getD r.toNat []).set c.toNat b)) else none) = _
  rw [if_pos hc]

/-- On a well-dimensioned solver, the bounds-checked `dfs` never hits an
out-of-range index and computes exactly what the total embedding computes. -/
theorem dfsChecked_eq_aux (s : BoggleSolver) (hbd : BDims s) :
    ∀ (n : Nat) (node : TrieNode), sizeOf node < n →
      ∀ (r c : Int) (path : List Char) (visited : List (List Bool))
        (found : List (List Char)), VDims s visited →
        s.dfsChecked r c node path visited found =
          some (s.dfs r c node path visited found) := by
  intro n
  induction n with
  | zero => intro node h; omega
  | succ m ih =>
    intro node hsz r c path visited found hdims
    rw [BoggleSolver.dfsChecked, BoggleSolver.dfs]
    by_cases hg : r < 0 ∨ r ≥ s.rows ∨ c < 0 ∨ c ≥ s.cols
    · rw [if_pos hg, if_pos (by tauto)]
    · rw [if_neg hg]
      simp only [not_or] at hg
      obtain ⟨g1, g2, g3, g4⟩ := hg
      have hb : inBounds s (r, c) :=
        show 0 ≤ r ∧ r < s.rows ∧ 0 ≤ c ∧ c < s.cols from
          ⟨by omega, by omega, by omega, by omega⟩
      rw [getVChecked_eq hdims hb]
      cases hv : getV visited r c with
      | true =>
        rw [if_pos (by tauto)]
      | false =>
        rw [if_neg (by
          simp only [Bool.false_eq_true, or_false]
          omega)]
        simp only [getCellChecked_eq hbd hb]
        cases hfind : node.find (getCell s.board r c) with
        | none => rfl
        | some next =>
          have hlt : sizeOf next < m := by
            have := sizeOf_find hfind
            omega
          have hdims1 : VDims s (setV visited r c true) :=
            setV_vdims s visited r c true hdims
          simp only [setVChecked_eq hdims hb, ih next hlt, dfs_visited_eq, hdims1,
            setVChecked_eq hdims1 hb]

/-- Wrapper without the explicit size bound. -/
theorem dfsChecked_eq (s : BoggleSolver) (hbd : BDims s) (r c : Int)
    (node : TrieNode) (path : List Char) (visited : List (List Bool))
    (found : List (List Char)) (hdims : VDims s visited) :
    s.dfsChecked r c node path visited found =
      some (s.dfs r c node path visited found) :=
  dfsChecked_eq_aux s hbd (sizeOf node + 1) node (by omega) r c path visited found hdims

theorem fold_cols_checked (s : BoggleSolver) (hbd : BDims s) (r : Nat) :
    ∀ (cs : List Nat) (st : List (List Bool) × List (List Char)),
      st.1 = s.initVisited →
      (cs.foldl (fun st2 (c : Nat) =>
          match st2 with
          | none => none
          | some st2v => s.dfsChecked (r : Int) (c : Int) s.trie [] st2v.1 st2v.2)
        (some st))
        = some (cs.foldl
            (fun st2 (c : Nat) => s.dfs (r : Int) (c : Int) s.trie [] st2.1 st2.2) st) := by
  intro cs
  induction cs with
  | nil => intro st h; rfl
  | cons c cs ihc =>
    intro st h1
    simp only [List.foldl_cons]
    rw [dfsChecked_eq s hbd _ _ _ _ _ _ (by rw [h1]; exact initVisited_vdims s)]
    exact ihc _ (by rw [dfs_visited_eq]; exact h1)

theorem fold_rows_checked (s : BoggleSolver) (hbd : BDims s) :
    ∀ (rs : List Nat) (st : List (List Bool) × List (List Char)),
      st.1 = s.initVisited →
      (rs.foldl (fun st (r : Nat) => (List.range s.cols.toNat).foldl
          (fun st2 (c : Nat) =>
            match st2 with
            | none => none
            | some st2v => s.dfsChecked (r : Int) (c : Int) s.trie [] st2v.1 st2v.2) st)
        (some st))
        = some (rs.foldl (fun st (r : Nat) => (List.range s.cols.toNat).foldl
            (fun st2 (c : Nat) => s.dfs (r : Int) (c : Int) s.trie [] st2.1 st2.2) st) st) := by
  intro rs
  induction rs with
  | nil => intro st h; rfl
  | cons r rs ihr =>
    intro st h1
    simp only [List.foldl_cons]
    rw [fold_cols_checked s hbd r (List.range s.cols.toNat) st h1]
    exact ihr _ (fold_cols_found s r (List.range s.cols.toNat) st h1).1

/-- On a well-dimensioned solver the whole bounds-checked search never hits an
out-of-range index and agrees with the total embedding. -/
theorem runSearchChecked_eq (s : BoggleSolver) (hbd : BDims s) :
    s.runSearchChecked = some s.runSearch := by
  unfold BoggleSolver.runSearchChecked BoggleSolver.runSearch
  exact fold_rows_checked s hbd (List.range s.rows.toNat) (s.initVisited, []) rfl

/-! ## Solver construction and small-grid lemmas -/

/-- Structure of any solver produced by `new`. -/
theorem new_elim {board dict : List (List Char)} {s : BoggleSolver}
    (hnew : BoggleSolver.new board dict = some s) :
    s.trie = buildTrie dict ∧ s.board = board ∧
      s.rows = (board.length : Int) ∧
      ∃ row0 rest, board = row0 :: rest ∧ s.cols = ((row0.length : Nat) : Int) := by
  cases board with
  | nil => simp [BoggleSolver.new] at hnew
  | cons row0 rest =>
    simp only [BoggleSolver.new, Option.some.injEq] at hnew
    subst hnew
    exact ⟨rfl, rfl, rfl, row0, rest, rfl, rfl⟩

/-- A duplicate-free list of in-bounds cells is no longer than the grid. -/
theorem cells_length_le {s : BoggleSolver} {cells : List (Int × Int)}
    (hnodup : cells.Nodup) (hmem : ∀ p ∈ cells, inBounds s p) :
    cells.length ≤ s.rows.toNat * s.cols.toNat := by
  classical
  have hsub : cells.toFinset ⊆ (Finset.Ico 0 s.rows) ×ˢ (Finset.Ico 0 s.cols) := by
    intro p hp
    rw [List.mem_toFinset] at hp
    have hb := hmem p hp
    simp only [Finset.mem_product, Finset.mem_Ico]
    exact ⟨⟨hb.1, hb.2.1⟩, hb.2.2.1, hb.2.2.2⟩
  have hcard := Finset.card_le_card hsub
  rw [List.toFinset_card_of_nodup hnodup, Finset.card_product,
    Int.card_Ico, Int.card_Ico] at hcard
  simpa using hcard

/-- When the trie comes from the dictionary and the grid has fewer than three
cells, the search finds nothing. -/
theorem solve_empty_of_small {dict : List (List Char)} {s : BoggleSolver}
    (htrie : s.trie = buildTrie dict)
    (hsmall : s.rows.toNat * s.cols.toNat < 3) : s.solve = (0, []) := by
  have hfound : s.runSearch.2 = [] := by
    rw [List.eq_nil_iff_forall_not_mem]
    intro w hw
    rw [runSearch_found_iff] at hw
    obtain ⟨ha, cells, hne2, hmap, hnodup, hchain, hmem⟩ := hw
    rw [htrie, buildTrie_accepts] at ha
    have h3 := (loadWords_length ha).1
    have hlen : cells.length ≤ s.rows.toNat * s.cols.toNat :=
      cells_length_le hnodup hmem
    have hwl : w.length = cells.length := by
      rw [hmap, List.length_map]
    omega
  unfold BoggleSolver.solve
  rw [hfound]
  simp

/-- When the trie is empty (all lines filtered out), the search finds nothing. -/
theorem solve_empty_of_filtered {dict : List (List Char)} {s : BoggleSolver}
    (htrie : s.trie = buildTrie dict)
    (hfilter : ∀ w ∈ dict, (trimWord w).length < 3 ∨ 16 < (trimWord w).length) :
    s.solve = (0, []) := by
  have hfound : s.runSearch.2 = [] := by
    rw [List.eq_nil_iff_forall_not_mem]
    intro w hw
    rw [runSearch_found_iff] at hw
    obtain ⟨ha, -⟩ := hw
    rw [htrie, buildTrie_eq_empty hfilter, empty_accepts] at ha
    cases ha
  unfold BoggleSolver.solve
  rw [hfound]
  simp

/-! ## Example instances used by the witnesses -/

def exBoard : List (List Char) := [['A', 'B'], ['C', 'D']]

def exDict : List (List Char) :=
  [['A', 'B', 'C'], ['A', 'C', 'D', 'B'], ['B', 'A', 'D'], ['A', 'B']]

def exSolver : BoggleSolver := ⟨buildTrie exDict, exBoard, 2, 2⟩

def c6Dict : List (List Char) := [['A'], List.replicate 17 'B']

def c6Solver : BoggleSolver := ⟨buildTrie c6Dict, [['A']], 1, 1⟩

def c9Args : List (List Char) :=
  [['p'], ['1', '2', '3', '4'], ['1', '2', '3', '4'],
   ['1', '2', '3', '4'], ['1', '2', '3', '4']]

def c9GoodArgs : List (List Char) :=
  [['p'], ['A', 'B', 'C', 'D'], ['E', 'F', 'G', 'H'],
   ['I', 'J', 'K', 'L'], ['M', 'N', 'O', 'P']]

/-! ## Claim theorems -/

/-- C1: for every grid and dictionary accepted by `new`, the found-words set
computed by the search is exactly the set of normalized dictionary words
(`loadWords` = trimmed, filtered to length 3..16, uppercased) that are
spellable by an 8-directionally adjacent, non-repeating path of grid cells,
and each such word appears exactly once (the found list is duplicate-free). -/
theorem c1_solve_found_exact (board dict : List (List Char)) (s : BoggleSolver)
    (hnew : BoggleSolver.new board dict = some s) :
    s.runSearch.2.Nodup ∧
      ∀ w, w ∈ s.runSearch.2 ↔
        (w ∈ loadWords dict ∧ 3 ≤ w.length ∧ w.length ≤ 16 ∧ Spellable s w) := by
  have htrie := (new_elim hnew).1
  refine ⟨runSearch_nodup s, ?_⟩
  intro w
  rw [runSearch_found_iff, htrie, buildTrie_accepts]
  constructor
  · rintro ⟨hm, hsp⟩
    have hl := loadWords_length hm
    exact ⟨hm, hl.1, hl.2, hsp⟩
  · rintro ⟨hm, -, -, hsp⟩
    exact ⟨hm, hsp⟩

/-- Witness for C1 at a concrete 2×2 board and four-word dictionary. -/
theorem c1_witness :
    BoggleSolver.new exBoard exDict = some exSolver ∧
      (exSolver.runSearch.2.Nodup ∧
        ∀ w, w ∈ exSolver.runSearch.2 ↔
          (w ∈ loadWords exDict ∧ 3 ≤ w.length ∧ w.length ≤ 16 ∧
            Spellable exSolver w)) :=
  ⟨rfl, c1_solve_found_exact exBoard exDict exSolver rfl⟩

/-- C2: the visited mask is all-false whenever no recursive `dfs` call is in
flight: every `dfs` call returns the mask exactly as received (each cell
marked on entry is unmarked on every exit path), so each top-level traversal
of `runSearch` starts from, and `runSearch` ends with, the all-false mask. -/
theorem c2_visited_mask_restored (s : BoggleSolver) :
    (∀ (r c : Int) (node : TrieNode) (path : List Char)
        (visited : List (List Bool)) (found : List (List Char)),
      (s.dfs r c node path visited found).1 = visited) ∧
    s.runSearch.1 = s.initVisited :=
  ⟨fun r c node path visited found => dfs_visited_eq s r c node path visited found,
    runSearch_visited_eq s⟩

/-- C3: for every solver state, the word list returned by `solve` is sorted by
strictly descending length, and among equal lengths by strictly ascending
lexicographic order. -/
theorem c3_output_sorted (s : BoggleSolver) :
    (s.solve.2).Pairwise (fun a b =>
      b.length < a.length ∨ (a.length = b.length ∧ lexLt a b = true)) := by
  have hperm := List.mergeSort_perm s.runSearch.2 rankLE
  have hnd : (s.runSearch.2.mergeSort rankLE).Nodup :=
    hperm.nodup_iff.mpr (runSearch_nodup s)
  have hsorted := List.sorted_mergeSort rankLE_trans rankLE_total s.runSearch.2
  have hstrict : (s.runSearch.2.mergeSort rankLE).Pairwise (fun a b =>
      b.length < a.length ∨ (a.length = b.length ∧ lexLt a b = true)) := by
    apply (hsorted.and hnd).imp
    rintro a b ⟨hle, hne⟩
    unfold rankLE at hle
    by_cases h : a.length = b.length
    · rw [if_pos h] at hle
      simp only [Bool.not_eq_true'] at hle
      rw [lexLt_false_iff] at hle
      rcases hle with he | hlt
      · exact absurd he hne
      · exact Or.inr ⟨h, hlt⟩
    · rw [if_neg h] at hle
      simp only [decide_eq_true_eq] at hle
      exact Or.inl hle
  exact List.Pairwise.sublist (List.take_sublist 6 _) hstrict

/-- C4: the ranked list has length `min total_count 6`, and `total_count` is
the size of the full duplicate-free found set, unaffected by the cap. -/
theorem c4_cap_and_count (s : BoggleSolver) :
    s.solve.2.length = min s.solve.1 6 ∧
      s.solve.1 = s.runSearch.2.length ∧ s.runSearch.2.Nodup := by
  refine ⟨?_, rfl, runSearch_nodup s⟩
  show ((s.runSearch.2.mergeSort rankLE).take 6).length = min s.runSearch.2.length 6
  rw [List.length_take, (List.mergeSort_perm s.runSearch.2 rankLE).length_eq]
  exact Nat.min_comm 6 _

/-- C5: `solve` is deterministic and observably side-effect free.  In the
embedding `solve` is a pure function of the solver (the grid, trie and
dimensions are read-only, the mask mutation is fully reverted by C2, and the
neighbour recursion order is fixed by the `dfs` definition); the only run-time
nondeterminism of the Rust program is the `HashSet` iteration order, and this
theorem shows every enumeration order of the found set yields the identical
`(total_count, top6)` pair. -/
theorem c5_solve_deterministic (s : BoggleSolver) (l : List (List Char))
    (hperm : l.Perm s.runSearch.2) :
    (l.length, (l.mergeSort rankLE).take 6) = s.solve := by
  unfold BoggleSolver.solve
  rw [hperm.length_eq, mergeSort_perm_eq hperm]

/-- Witness for C5: reversing the found list leaves the result unchanged. -/
theorem c5_witness :
    (exSolver.runSearch.2.reverse).Perm exSolver.runSearch.2 ∧
      ((exSolver.runSearch.2.reverse).length,
        ((exSolver.runSearch.2.reverse).mergeSort rankLE).take 6) = exSolver.solve :=
  ⟨List.reverse_perm _, c5_solve_deterministic exSolver _ (List.reverse_perm _)⟩

/-- C6: an empty dictionary, or one whose words (trimmed lines) all have
length < 3 or > 16, is never inserted into the trie, so `solve` returns
`(0, [])` on every grid accepted by `new`. -/
theorem c6_trivial_dictionaries (board dict : List (List Char)) (s : BoggleSolver)
    (hfilter : ∀ w ∈ dict, (trimWord w).length < 3 ∨ 16 < (trimWord w).length)
    (hnew : BoggleSolver.new board dict = some s) :
    s.solve = (0, []) :=
  solve_empty_of_filtered (new_elim hnew).1 hfilter

/-- Witness for C6: a one-character word and a seventeen-character word are
both filtered out, and `solve` reports no words. -/
theorem c6_witness :
    (∀ w ∈ c6Dict, (trimWord w).length < 3 ∨ 16 < (trimWord w).length) ∧
      BoggleSolver.new [['A']] c6Dict = some c6Solver ∧
      c6Solver.solve = (0, []) :=
  ⟨by decide, rfl, c6_trivial_dictionaries [['A']] c6Dict c6Solver (by decide) rfl⟩

/-- C7: inserting the same word twice leaves the trie in the identical state
(hence identical child lookups and terminal flags) as inserting it once. -/
theorem c7_insert_idempotent (t : TrieNode) (w : List Char) :
    (t.insert w).insert w = t.insert w :=
  insert_idem w t

/-- C8 counterexample: on a grid with zero rows, `BoggleSolver::new` evaluates
`board[0]` (src/main.rs line 44), which is an index panic on the empty vector
— embedded as `none` — so construction does fail, contradicting the claim
that a zero-row grid is handled by `new` without failure. -/
theorem c8_counterexample :
    BoggleSolver.new ([] : List (List Char)) [] = none := rfl

/-- C8 (amended): for every dictionary and every grid with at least one row,
`new` succeeds, and whenever the grid has fewer than three cells in total —
so that geometry prevents any non-repeating path of length ≥ 3 — `solve`
finds no words; a zero-row grid, by contrast, panics in `new` at `board[0]`. -/
theorem c8_amended (board dict : List (List Char)) (hne : board ≠ []) :
    ∃ s, BoggleSolver.new board dict = some s ∧
      (s.rows.toNat * s.cols.toNat < 3 → s.solve = (0, [])) := by
  cases board with
  | nil => exact absurd rfl hne
  | cons row0 rest =>
    refine ⟨⟨buildTrie dict, row0 :: rest, (((row0 :: rest).length : Nat) : Int),
      ((row0.length : Nat) : Int)⟩, rfl, ?_⟩
    intro hsmall
    exact solve_empty_of_small rfl hsmall

/-- Witness for C8 at a concrete 1×2 grid. -/
theorem c8_witness :
    (([['A', 'B']] : List (List Char)) ≠ []) ∧
      ∃ s, BoggleSolver.new [['A', 'B']] [['A', 'B', 'C']] = some s ∧
        (s.rows.toNat * s.cols.toNat < 3 → s.solve = (0, [])) :=
  ⟨by simp, c8_amended [['A', 'B']] [['A', 'B', 'C']] (by simp)⟩

def c9Board : List (List Char) :=
  (c9Args.drop 1).map (fun row => row.map Char.toUpper)

def c9Solver : BoggleSolver := ⟨buildTrie [], c9Board, 4, 4⟩

/-- C9 counterexample: four arguments of four digits each are not letters,
yet `main` accepts them, runs the search and produces a result, instead of
emitting a usage message and exiting — so the per-argument check is a length
check, not a letter check. -/
theorem c9_counterexample :
    runMain c9Args (some []) = MainResult.success 0 [] ∧ '1'.isAlpha = false := by
  constructor
  · have hsolve : c9Solver.solve = (0, []) :=
      solve_empty_of_filtered rfl (by intro w hw; simp at hw)
    have hmain : runMain c9Args (some []) =
        MainResult.success c9Solver.solve.1 c9Solver.solve.2 := by
      unfold runMain
      rw [if_neg (by decide), if_neg (by decide)]
      rfl
    rw [hmain, hsolve]
  · rfl

/-- C9 (amended): `main` accepts exactly four grid arguments (five including
the executable path); a wrong argument count yields the usage message without
running the search; each argument must have length exactly four, but its
characters need not be letters (they are uppercased, making letter input
case-insensitive), and a wrong-length argument yields a row-length error
(not the usage message) without running the search; dictionary-load failure
yields an error naming `words.txt` and no result is produced. -/
theorem c9_amended (args : List (List Char)) (dict : Option (List (List Char))) :
    (args.length ≠ 5 → runMain args dict = MainResult.usageError) ∧
    (args.length = 5 → (∃ row ∈ args.drop 1, row.length ≠ 4) →
      runMain args dict = MainResult.rowLenError) ∧
    (args.length = 5 → (∀ row ∈ args.drop 1, row.length = 4) →
      (runMain args none = MainResult.dictError ∧
        ∀ d, ∃ s,
          BoggleSolver.new ((args.drop 1).map (fun row => row.map Char.toUpper)) d
              = some s ∧
            runMain args (some d) = MainResult.success s.solve.1 s.solve.2)) := by
  refine ⟨?_, ?_, ?_⟩
  · intro h
    unfold runMain
    rw [if_pos h]
  · intro h5 hbad
    have hany : ((args.drop 1).any fun row => decide (row.length ≠ 4)) = true := by
      rw [List.any_eq_true]
      obtain ⟨row, hr, hlen⟩ := hbad
      exact ⟨row, hr, by simpa using hlen⟩
    simp only [runMain, if_neg (not_not_intro h5), hany, if_true]
  · intro h5 hgood
    have hany : ((args.drop 1).any fun row => decide (row.length ≠ 4)) = false := by
      have hne : ¬ ((args.drop 1).any fun row => decide (row.length ≠ 4)) = true := by
        rw [List.any_eq_true]
        rintro ⟨row, hr, hbad2⟩
        simp only [decide_eq_true_eq] at hbad2
        exact hbad2 (hgood row hr)
      rw [Bool.not_eq_true] at hne
      exact hne
    constructor
    · simp only [runMain, if_neg (not_not_intro h5), hany, Bool.false_eq_true,
        if_false]
    · intro d
      cases hb : (args.drop 1).map (fun row => row.map Char.toUpper) with
      | nil =>
        have hlen4 : ((args.drop 1).map (fun row => row.map Char.toUpper)).length = 4 := by
          rw [List.length_map, List.length_drop, h5]
        rw [hb] at hlen4
        simp at hlen4
      | cons row0 rest =>
        refine ⟨⟨buildTrie d, row0 :: rest, (((row0 :: rest).length : Nat) : Int),
          ((row0.length : Nat) : Int)⟩, rfl, ?_⟩
        simp only [runMain, if_neg (not_not_intro h5), hany, Bool.false_eq_true,
          if_false]
        rw [hb]
        rfl

/-- Witness for C9: a wrong argument count yields the usage message, and a
well-formed argument vector with a failed dictionary load yields the
dictionary error. -/
theorem c9_witness :
    (([] : List (List Char)).length ≠ 5 ∧
      runMain [] none = MainResult.usageError) ∧
    (c9GoodArgs.length = 5 ∧ (∀ row ∈ c9GoodArgs.drop 1, row.length = 4) ∧
      runMain c9GoodArgs none = MainResult.dictError) :=
  ⟨⟨by decide, (c9_amended [] none).1 (by decide)⟩,
   ⟨by decide, by decide,
    ((c9_amended c9GoodArgs none).2.2 (by decide) (by decide)).1⟩⟩

/-- C10: on any solver whose stored `rows`/`cols` match the board's actual
dimensions, every board and visited-mask access inside `dfs` is in bounds:
the bounds-checked instrumentation (`none` = index panic, including the
`usize` cast of a negative coordinate) never fails and agrees with the total
embedding, for `dfs` on any well-dimensioned mask and for the whole search. -/
theorem c10_no_out_of_bounds (s : BoggleSolver) (hbd : BDims s) :
    (∀ (r c : Int) (node : TrieNode) (path : List Char)
        (visited : List (List Bool)) (found : List (List Char)),
      VDims s visited →
        s.dfsChecked r c node path visited found =
          some (s.dfs r c node path visited found)) ∧
    s.runSearchChecked = some s.runSearch :=
  ⟨fun r c node path visited found hdims =>
      dfsChecked_eq s hbd r c node path visited found hdims,
    runSearchChecked_eq s hbd⟩

/-- Witness for C10 at the concrete 2×2 solver. -/
theorem c10_witness :
    BDims exSolver ∧ VDims exSolver exSolver.initVisited ∧
      exSolver.dfsChecked 0 0 exSolver.trie [] exSolver.initVisited [] =
        some (exSolver.dfs 0 0 exSolver.trie [] exSolver.initVisited []) ∧
      exSolver.runSearchChecked = some exSolver.runSearch :=
  ⟨by unfold BDims; decide, by unfold VDims; decide,
    (c10_no_out_of_bounds exSolver (by unfold BDims; decide)).1 0 0 exSolver.trie []
      exSolver.initVisited [] (by unfold VDims; decide),
    (c10_no_out_of_bounds exSolver (by unfold BDims; decide)).2⟩
